import Mathlib

/-!
# Live Series Renderer Core — verification

A shallow embedding of the numeric core of the `bklit-ui` chart library
(`live-line-chart.tsx`, `live-line.tsx`, `live-y-axis.tsx`), together with
proofs about it.  JavaScript numbers are modelled as exact rationals (`ℚ`);
array indexing with possible `undefined` results is modelled with `Option`.

Embedded functions (names follow the source):
* `interpolateAtTime` — binary-search time interpolation (SeriesInterpolator);
* `nextAnimFrame` — the per-frame easing step (LiveFrameAnimator);
* `computeTargetRange` — instantaneous target Y-range;
* `pickNiceInterval` — hysteresis tick-interval picker (NiceIntervalPicker);
* `detectMomentum` — trailing-window trend classification (MomentumClassifier);
* `niceGridTicks` — 1/2/5 grid tick generation (GridTickGenerator);
* `contextData` — windowed slice with synthetic live tip (WindowedSeriesView).
-/

namespace BklitUI

/-- A streaming data point `{ time: unixSeconds, value }` (source: `LiveLinePoint`). -/
structure LiveLinePoint where
  time : ℚ
  value : ℚ
deriving DecidableEq, Repr

/-- The `Series` invariant from the spec: sorted by time ascending, ties permitted. -/
def sortedByTime (l : List LiveLinePoint) : Prop :=
  l.Pairwise (fun a b => a.time ≤ b.time)

instance (l : List LiveLinePoint) : Decidable (sortedByTime l) := by
  unfold sortedByTime; infer_instance

/-- The `while (hi - lo > 1)` binary-search loop inside `interpolateAtTime`.
`fuel` bounds the number of iterations; each iteration strictly decreases
`hi - lo`, so `fuel = points.length` (the value used at the call site) always
suffices — see `bisectLoop_spec`, whose conclusion does not depend on the
exact fuel as long as `hi - lo ≤ fuel`. -/
def bisectLoop (points : List LiveLinePoint) (timeSec : ℚ) :
    Nat → Nat → Nat → Nat × Nat
  | 0, lo, hi => (lo, hi)
  | fuel + 1, lo, hi =>
    if 1 < hi - lo then
      let mid := (lo + hi) / 2
      match points[mid]? with
      | some midPt =>
        if midPt.time ≤ timeSec then bisectLoop points timeSec fuel mid hi
        else bisectLoop points timeSec fuel lo mid
      | none => bisectLoop points timeSec fuel lo mid
    else (lo, hi)

/-- Source: `interpolateAtTime(points, timeSec)` in `live-line-chart.tsx`.
Returns `none` exactly where the source returns `null`. -/
def interpolateAtTime (points : List LiveLinePoint) (timeSec : ℚ) : Option ℚ :=
  match points.head?, points.getLast? with
  | some firstPt, some lastPt =>
    if timeSec ≤ firstPt.time then some firstPt.value
    else if lastPt.time ≤ timeSec then some lastPt.value
    else
      let lohi := bisectLoop points timeSec points.length 0 (points.length - 1)
      match points[lohi.1]?, points[lohi.2]? with
      | some p1, some p2 =>
        if p2.time - p1.time = 0 then some p1.value
        else some (p1.value + (p2.value - p1.value) * ((timeSec - p1.time) / (p2.time - p1.time)))
      | _, _ => none
  | _, _ => none

/-- Animation frame state (source: `AnimFrame`). -/
structure AnimFrame where
  now : ℚ
  yMin : ℚ
  yMax : ℚ
  displayValue : ℚ
deriving DecidableEq, Repr

/-- The instantaneous target Y-range (spec: `TargetRange`). -/
structure TargetRange where
  yMin : ℚ
  yMax : ℚ
deriving DecidableEq, Repr

/-- Source: `computeTargetRange(data, value, exaggerate)`.  The JS `for` loop
folds `min`/`max` starting from `±Infinity`; on a non-empty list that equals
folding from the first element's value.  The JS `a || b` fallback (taken when
`rawRange * paddingFactor` is `0`) is modelled by the explicit zero test. -/
def computeTargetRange (data : List LiveLinePoint) (value : ℚ) (exaggerate : Bool) :
    TargetRange :=
  match data with
  | [] => ⟨0, 100⟩
  | d0 :: rest =>
    let mn0 := rest.foldl (fun m d => if d.value < m then d.value else m) d0.value
    let mx0 := rest.foldl (fun m d => if m < d.value then d.value else m) d0.value
    let mn := if value < mn0 then value else mn0
    let mx := if mx0 < value then value else mx0
    let rawRange := mx - mn
    let paddingFactor : ℚ := if exaggerate then 3/100 else 15/100
    let rangePad :=
      if rawRange * paddingFactor = 0 then (if exaggerate then 1/25 else 10)
      else rawRange * paddingFactor
    ⟨mn - rangePad, mx + rangePad⟩

/-- Source: `nextAnimFrame(prev, targetRange, targetValue, speed, isPaused)`.
`Date.now()` is the one external read; it is passed in as `wallClock`. -/
def nextAnimFrame (wallClock : ℚ) (prev : AnimFrame) (targetRange : TargetRange)
    (targetValue speed : ℚ) (isPaused : Bool) : AnimFrame :=
  { now := if isPaused then prev.now else wallClock
    yMin :=
      if targetRange.yMin < prev.yMin then targetRange.yMin
      else prev.yMin + (targetRange.yMin - prev.yMin) * speed
    yMax :=
      if prev.yMax < targetRange.yMax then targetRange.yMax
      else prev.yMax + (targetRange.yMax - prev.yMax) * speed
    displayValue := prev.displayValue + (targetValue - prev.displayValue) * speed }

/-- The `while ((span / d) * pxPerUnit >= minGap) { span /= d; ... }` loop of
`pickNiceInterval`, for one divisor cycle `divs`.  `fuel` bounds the number of
iterations; `none` means the loop did not finish within `fuel` steps (for
`minGap ≤ 0` the JS loop never finishes).  `divideLoop_mono` shows the result
is independent of the fuel once it is `some`. -/
def divideLoop (pxPerUnit minGap : ℚ) (divs : List ℚ) :
    Nat → Nat → ℚ → Option ℚ
  | 0, _, _ => none
  | fuel + 1, i, span =>
    let d := (divs[i % 3]?).getD 2
    if minGap ≤ span / d * pxPerUnit then
      divideLoop pxPerUnit minGap divs fuel (i + 1) (span / d)
    else some span

/-- Fuel that provably suffices for `divideLoop` whenever
`0 < pxPerUnit`, `0 < minGap`, `0 < span0` and every divisor is `≥ 2`
(see `divideLoop_isSome`): every iteration at least halves `span`. -/
def loopFuel (pxPerUnit minGap span0 : ℚ) : Nat :=
  (Int.clog 2 (span0 * pxPerUnit / minGap)).toNat + 1

/-- Source: `pickNiceInterval(valRange, chartHeight, minGap, prevInterval)` in
`live-y-axis` (unnamed part 000).  The three divisor cycles are those of the
source; `10 ** Math.ceil(Math.log10(valRange))` is `10 ^ Int.clog 10 valRange`
in exact arithmetic.  When every loop finishes, `best` is the minimum of the
three candidates and the `best === Infinity` fallback is dead code, so the
result is `some (min …)`; a non-finishing loop (JS hangs) is `none`. -/
def pickNiceInterval (valRange chartHeight minGap prevInterval : ℚ) : Option ℚ :=
  if valRange ≤ 0 ∨ chartHeight ≤ 0 then some 1
  else
    let pxPerUnit := chartHeight / valRange
    if 0 < prevInterval ∧ minGap * (1/2) ≤ prevInterval * pxPerUnit ∧
        prevInterval * pxPerUnit ≤ minGap * 3 then
      some prevInterval
    else
      let span0 := (10:ℚ) ^ Int.clog 10 valRange
      let fuel := loopFuel pxPerUnit minGap span0
      match divideLoop pxPerUnit minGap [2, 5/2, 2] fuel 0 span0,
            divideLoop pxPerUnit minGap [2, 2, 5/2] fuel 0 span0,
            divideLoop pxPerUnit minGap [5/2, 2, 2] fuel 0 span0 with
      | some a, some b, some c => some (min a (min b c))
      | _, _, _ => none

/-- Trend classification (source: `Momentum` in `live-line.tsx`). -/
inductive Momentum where
  | up
  | down
  | flat
deriving DecidableEq, Repr

/-- Source: `detectMomentum(data, dataKey, lookback = 20)` in `live-line.tsx`,
restricted to all-numeric series (every `data[i][dataKey]` a number), so the
`typeof v === "number"` guard always passes and the series is just `List ℚ`.
`start = Math.max(0, length - lookback)` is `ℕ` truncated subtraction.  The
`min`/`max` fold from `±Infinity` over a non-empty window equals the fold from
the window's first element; for the empty window (only possible when
`lookback = 0`) the JS comparisons against the residual `±Infinity` fall
through to `"up"`, which the first match arm mirrors. -/
def detectMomentum (data : List ℚ) (lookback : Nat) : Momentum :=
  if data.length < 5 then .flat
  else
    match data.drop (data.length - lookback) with
    | [] => .up
    | w :: ws =>
      let mn := ws.foldl (fun m v => if v < m then v else m) w
      let mx := ws.foldl (fun m v => if m < v then v else m) w
      let range := mx - mn
      if range = 0 then .flat
      else
        let tailStart := Nat.max (data.length - lookback) (data.length - 5)
        let first := (data[tailStart]?).getD 0
        let last := (data.getLast?).getD 0
        let delta := last - first
        let threshold := range * (12/100)
        if threshold < delta then .up
        else if delta < -threshold then .down
        else .flat

/-- The magnitude-snapped step of `niceGridTicks`:
`rawStep = range / count`, `magnitude = 10 ** Math.floor(Math.log10(rawStep))`
(`10 ^ Int.log 10 rawStep` in exact arithmetic), residual snapped to
1 / 2 / 5 / 10 times the magnitude. -/
def niceStepOf (min max : ℚ) (count : Nat) : ℚ :=
  let range := max - min
  let rawStep := range / count
  let magnitude := (10:ℚ) ^ Int.log 10 rawStep
  let residual := rawStep / magnitude
  if residual ≤ 3/2 then magnitude
  else if residual ≤ 3 then 2 * magnitude
  else if residual ≤ 7 then 5 * magnitude
  else 10 * magnitude

/-- Source: `niceGridTicks(min, max, count = 5)` in `live-y-axis.tsx`.
The JS loop `for (let v = start; v <= max; v += niceStep) ticks.push(v)` in
exact arithmetic pushes `start + k * niceStep` for `k = 0, 1, …` while that
value is `≤ max`, i.e. for all `k ≤ ⌊(max - start) / niceStep⌋` (the step is
positive; see `niceStepOf_pos`). -/
def niceGridTicks (min max : ℚ) (count : Nat) : List ℚ :=
  if max - min ≤ 0 then []
  else
    let niceStep := niceStepOf min max count
    let start := ⌈min / niceStep⌉ * niceStep
    let n := (⌊(max - start) / niceStep⌋ + 1).toNat
    (List.range n).map (fun k : ℕ => start + (k : ℚ) * niceStep)

/-- Source: `const bisectTime = bisector<LiveLinePoint, number>((d) => d.time).left`.
On a time-ascending list, d3's left bisector returns the first index whose
time is `≥ t`, i.e. the number of leading points with time `< t`. -/
def bisectTime (data : List LiveLinePoint) (t : ℚ) : Nat :=
  (data.takeWhile (fun p => decide (p.time < t))).length

/-- Source: the `contextData` memo in `live-line-chart.tsx` (WindowedSeriesView):
left-bisect at the window start, step back one point when possible, slice, and
append the synthetic live-tip point.  The mapping of each `LiveLinePoint` to a
`{date, [dataKey]}` record is order-preserving and value-preserving, so the
slice is modelled at the `LiveLinePoint` level; `windowStart` and `liveTime`
are the second-based `(frame.now - windowMs) / 1000` and `frame.now / 1000`. -/
def contextData (data : List LiveLinePoint) (windowStart liveTime liveValue : ℚ) :
    List LiveLinePoint :=
  let startIdx0 := bisectTime data windowStart
  let startIdx := if 0 < startIdx0 then startIdx0 - 1 else startIdx0
  data.drop startIdx ++ [⟨liveTime, liveValue⟩]

/-!
## Theorems
-/

/-- C10: on the empty series `computeTargetRange` returns the fixed range
`{yMin: 0, yMax: 100}` for every live value and both padding modes; neither
the live value nor the padding policy is consulted. -/
theorem C10_computeTargetRange_empty (value : ℚ) (exaggerate : Bool) :
    computeTargetRange [] value exaggerate = ⟨0, 100⟩ := rfl

/-- C2: the `LiveFrameAnimator` transition snaps `yMax` to the target exactly
when the target is larger (and eases otherwise), symmetrically snaps `yMin`
exactly when the target is smaller (and eases otherwise), and always eases the
display value with no snap case. -/
theorem C2_nextAnimFrame_transition (wallClock : ℚ) (prev : AnimFrame)
    (target : TargetRange) (targetValue speed : ℚ) (isPaused : Bool) :
    (prev.yMax < target.yMax →
      (nextAnimFrame wallClock prev target targetValue speed isPaused).yMax = target.yMax) ∧
    (¬ prev.yMax < target.yMax →
      (nextAnimFrame wallClock prev target targetValue speed isPaused).yMax =
        prev.yMax + (target.yMax - prev.yMax) * speed) ∧
    (target.yMin < prev.yMin →
      (nextAnimFrame wallClock prev target targetValue speed isPaused).yMin = target.yMin) ∧
    (¬ target.yMin < prev.yMin →
      (nextAnimFrame wallClock prev target targetValue speed isPaused).yMin =
        prev.yMin + (target.yMin - prev.yMin) * speed) ∧
    (nextAnimFrame wallClock prev target targetValue speed isPaused).displayValue =
      prev.displayValue + (targetValue - prev.displayValue) * speed := by
  unfold nextAnimFrame
  refine ⟨fun h => ?_, fun h => ?_, fun h => ?_, fun h => ?_, rfl⟩ <;> simp [h]

/-- Witness for C2 at the spec's own example: `prev.yMax = 100`,
`target.yMax = 150` snaps to `150`; the display value eases. -/
theorem C2_nextAnimFrame_transition_witness :
    (nextAnimFrame 7 ⟨0, 0, 100, 50⟩ ⟨0, 150⟩ 60 (1/2) false).yMax = 150 ∧
    (nextAnimFrame 7 ⟨0, 0, 100, 50⟩ ⟨0, 150⟩ 60 (1/2) false).displayValue = 55 := by
  have h := C2_nextAnimFrame_transition 7 ⟨0, 0, 100, 50⟩ ⟨0, 150⟩ 60 (1/2) false
  refine ⟨h.1 (by norm_num), ?_⟩
  rw [h.2.2.2.2]
  norm_num

/-- C9: for easing speed in `(0, 1]`, one animator step never clips the target
range out of the displayed Y-domain: `yMin' ≤ target.yMin` and
`target.yMax ≤ yMax'`. -/
theorem C9_nextAnimFrame_contains_target (wallClock : ℚ) (prev : AnimFrame)
    (target : TargetRange) (targetValue speed : ℚ) (isPaused : Bool)
    (hpos : 0 < speed) (h1 : speed ≤ 1) :
    (nextAnimFrame wallClock prev target targetValue speed isPaused).yMin ≤ target.yMin ∧
    target.yMax ≤ (nextAnimFrame wallClock prev target targetValue speed isPaused).yMax := by
  unfold nextAnimFrame
  constructor
  · dsimp only
    split
    · exact le_refl _
    · rename_i h
      push_neg at h
      nlinarith [mul_nonneg (sub_nonneg.2 h) (sub_nonneg.2 h1)]
  · dsimp only
    split
    · exact le_refl _
    · rename_i h
      push_neg at h
      nlinarith [mul_nonneg (sub_nonneg.2 h) (sub_nonneg.2 h1)]

/-- Witness for C9 with `speed = 1/2`, contracting target. -/
theorem C9_nextAnimFrame_contains_target_witness :
    (nextAnimFrame 0 ⟨0, -1, 3, 0⟩ ⟨0, 2⟩ 0 (1/2) false).yMin ≤ 0 ∧
    (2:ℚ) ≤ (nextAnimFrame 0 ⟨0, -1, 3, 0⟩ ⟨0, 2⟩ 0 (1/2) false).yMax :=
  C9_nextAnimFrame_contains_target 0 ⟨0, -1, 3, 0⟩ ⟨0, 2⟩ 0 (1/2) false
    (by norm_num) (by norm_num)

/-- C3: the hysteresis rule of `pickNiceInterval`: when the previous interval
is positive and the pixel spacing it would produce lies within
`[0.5 × minGap, 3 × minGap]`, the previous interval is returned unchanged. -/
theorem C3_pickNiceInterval_hysteresis (valueRange pixelExtent minPixelGap previousInterval : ℚ)
    (hv : 0 < valueRange) (hp : 0 < pixelExtent) (hprev : 0 < previousInterval)
    (hlo : minPixelGap * (1/2) ≤ previousInterval * pixelExtent / valueRange)
    (hhi : previousInterval * pixelExtent / valueRange ≤ minPixelGap * 3) :
    pickNiceInterval valueRange pixelExtent minPixelGap previousInterval =
      some previousInterval := by
  unfold pickNiceInterval
  rw [if_neg (by push_neg; exact ⟨hv, hp⟩), if_pos]
  rw [mul_div_assoc] at hlo hhi
  exact ⟨hprev, by linarith, by linarith⟩

/-- Witness for C3: previous interval `1`, spacing `10` within `[5, 30]`. -/
theorem C3_pickNiceInterval_hysteresis_witness :
    pickNiceInterval 10 100 10 1 = some 1 :=
  C3_pickNiceInterval_hysteresis 10 100 10 1 (by norm_num) (by norm_num) (by norm_num)
    (by norm_num) (by norm_num)

/-- Helper: the element of `l` at index `i`, defaulting to `⟨0, 0⟩`. -/
def ptAt (l : List LiveLinePoint) (i : Nat) : LiveLinePoint := l.getD i ⟨0, 0⟩

theorem ptAt_eq_getElem {l : List LiveLinePoint} {i : Nat} (h : i < l.length) :
    l[i]? = some (ptAt l i) := by
  rw [List.getElem?_eq_getElem h, ptAt, List.getD_eq_getElem l _ h]

theorem ptAt_zero {l : List LiveLinePoint} (h : l ≠ []) : ptAt l 0 = l.head h := by
  obtain ⟨a, as, rfl⟩ := List.exists_cons_of_ne_nil h
  rfl

theorem ptAt_last {l : List LiveLinePoint} (h : l ≠ []) :
    ptAt l (l.length - 1) = l.getLast h := by
  have hl : 0 < l.length := List.length_pos.mpr h
  rw [ptAt, List.getD_eq_getElem l _ (by omega), List.getLast_eq_getElem]

theorem sorted_time_mono {l : List LiveLinePoint} (hs : sortedByTime l)
    {i j : Nat} (hij : i ≤ j) (hj : j < l.length) :
    (ptAt l i).time ≤ (ptAt l j).time := by
  rcases eq_or_lt_of_le hij with rfl | hlt
  · exact le_refl _
  · have hi : i < l.length := lt_of_le_of_lt hij hj
    rw [ptAt, ptAt, List.getD_eq_getElem l _ hi, List.getD_eq_getElem l _ hj]
    exact List.pairwise_iff_getElem.mp hs i j hi hj hlt

theorem sorted_head_le {l : List LiveLinePoint} (hs : sortedByTime l) (hne : l ≠ [])
    {p : LiveLinePoint} (hp : p ∈ l) : (l.head hne).time ≤ p.time := by
  obtain ⟨i, hi, rfl⟩ := List.mem_iff_getElem.mp hp
  have := sorted_time_mono hs (Nat.zero_le i) hi
  rwa [ptAt_zero hne, ptAt, List.getD_eq_getElem l _ hi] at this

theorem sorted_le_getLast {l : List LiveLinePoint} (hs : sortedByTime l) (hne : l ≠ [])
    {p : LiveLinePoint} (hp : p ∈ l) : p.time ≤ (l.getLast hne).time := by
  obtain ⟨i, hi, rfl⟩ := List.mem_iff_getElem.mp hp
  have := sorted_time_mono hs (show i ≤ l.length - 1 by omega) (show l.length - 1 < l.length by omega)
  rwa [ptAt_last hne, ptAt, List.getD_eq_getElem l _ hi] at this

/-- Invariant of the binary-search loop: started anywhere inside the array with
the bracketing invariant `points[lo].time ≤ t < points[hi].time` and enough
fuel, it ends on two adjacent in-bounds indices that still bracket `t`.
No sortedness is required: the loop maintains the invariant by construction. -/
theorem bisectLoop_spec (points : List LiveLinePoint) (t : ℚ) :
    ∀ (fuel lo hi : Nat), hi - lo ≤ fuel → lo < hi → hi < points.length →
      (ptAt points lo).time ≤ t → t < (ptAt points hi).time →
      (bisectLoop points t fuel lo hi).1 + 1 = (bisectLoop points t fuel lo hi).2 ∧
      (bisectLoop points t fuel lo hi).2 < points.length ∧
      (ptAt points (bisectLoop points t fuel lo hi).1).time ≤ t ∧
      t < (ptAt points (bisectLoop points t fuel lo hi).2).time := by
  intro fuel
  induction fuel with
  | zero => intro lo hi hfuel hlt _ _ _; omega
  | succ fuel ih =>
    intro lo hi hfuel hlt hhi hlow hhigh
    by_cases hgap : 1 < hi - lo
    · have hmid1 : lo < (lo + hi) / 2 := by omega
      have hmid2 : (lo + hi) / 2 < hi := by omega
      have hmidlen : (lo + hi) / 2 < points.length := lt_trans hmid2 hhi
      rw [show bisectLoop points t (fuel + 1) lo hi =
          (if (ptAt points ((lo + hi) / 2)).time ≤ t then
            bisectLoop points t fuel ((lo + hi) / 2) hi
          else bisectLoop points t fuel lo ((lo + hi) / 2)) by
        simp only [bisectLoop, if_pos hgap, ptAt_eq_getElem hmidlen]]
      by_cases hple : (ptAt points ((lo + hi) / 2)).time ≤ t
      · rw [if_pos hple]
        exact ih ((lo + hi) / 2) hi (by omega) hmid2 hhi hple hhigh
      · rw [if_neg hple]
        exact ih lo ((lo + hi) / 2) (by omega) hmid1 hmidlen hlow (lt_of_not_le hple)
    · rw [show bisectLoop points t (fuel + 1) lo hi = (lo, hi) by
        simp only [bisectLoop, if_neg hgap]]
      exact ⟨by omega, hhi, hlow, hhigh⟩

/-- Helper: strictly between the clamps, `interpolateAtTime` returns the
linear interpolation over an adjacent bracketing pair. -/
theorem interpolate_middle (points : List LiveLinePoint) (t : ℚ) (hne : points ≠ [])
    (h1 : (points.head hne).time < t) (h2 : t < (points.getLast hne).time) :
    ∃ i p1 p2, points[i]? = some p1 ∧ points[i + 1]? = some p2 ∧
      p1.time ≤ t ∧ t < p2.time ∧
      interpolateAtTime points t =
        some (p1.value + (p2.value - p1.value) * ((t - p1.time) / (p2.time - p1.time))) := by
  have hlen1 : 0 < points.length := List.length_pos.mpr hne
  have hlen2 : 2 ≤ points.length := by
    by_contra hl2
    have hl : points.length = 1 := by omega
    obtain ⟨a, rfl⟩ := List.length_eq_one.mp hl
    simp only [List.head_cons, List.getLast_singleton] at h1 h2
    linarith
  have hspec := bisectLoop_spec points t points.length 0 (points.length - 1)
    (by omega) (by omega) (by omega)
    (by rw [ptAt_zero hne]; exact le_of_lt h1)
    (by rw [ptAt_last hne]; exact h2)
  set lohi := bisectLoop points t points.length 0 (points.length - 1) with hlohi
  obtain ⟨hadj, hlen, hlow, hhigh⟩ := hspec
  have hi1 : lohi.1 < points.length := by omega
  refine ⟨lohi.1, ptAt points lohi.1, ptAt points lohi.2,
    ptAt_eq_getElem hi1, by rw [hadj]; exact ptAt_eq_getElem hlen, hlow, hhigh, ?_⟩
  have hdt : (ptAt points lohi.2).time - (ptAt points lohi.1).time ≠ 0 := by
    intro hz
    rw [sub_eq_zero] at hz
    linarith
  rw [interpolateAtTime, List.head?_eq_head hne, List.getLast?_eq_getLast points hne]
  simp only [← hlohi, ptAt_eq_getElem hi1, ptAt_eq_getElem hlen,
    if_neg (not_le.mpr h1), if_neg (not_le.mpr h2), if_neg hdt]

/-- Helper: the left clamp of `interpolateAtTime`. -/
theorem interpolate_clamp_left (points : List LiveLinePoint) (t : ℚ) (hne : points ≠ [])
    (hc : t ≤ (points.head hne).time) :
    interpolateAtTime points t = some (points.head hne).value := by
  simp only [interpolateAtTime, List.head?_eq_head hne,
    List.getLast?_eq_getLast points hne, if_pos hc]

/-- Helper: the right clamp of `interpolateAtTime` (reached only when the left
clamp did not fire). -/
theorem interpolate_clamp_right (points : List LiveLinePoint) (t : ℚ) (hne : points ≠ [])
    (hc1 : ¬ t ≤ (points.head hne).time) (hc2 : (points.getLast hne).time ≤ t) :
    interpolateAtTime points t = some (points.getLast hne).value := by
  simp only [interpolateAtTime, List.head?_eq_head hne,
    List.getLast?_eq_getLast points hne, if_neg hc1, if_pos hc2]

/-- C7: `valueAt` fails (returns `none`, the `OutOfData` / `null` result) if
and only if the series is empty; on every non-empty series it produces a
value, for every query time. -/
theorem C7_valueAt_fails_iff_empty (points : List LiveLinePoint) (t : ℚ) :
    interpolateAtTime points t = none ↔ points = [] := by
  constructor
  · intro h
    by_contra hne
    by_cases hc1 : t ≤ (points.head hne).time
    · rw [interpolate_clamp_left points t hne hc1] at h
      exact Option.noConfusion h
    · by_cases hc2 : (points.getLast hne).time ≤ t
      · rw [interpolate_clamp_right points t hne hc1 hc2] at h
        exact Option.noConfusion h
      · obtain ⟨i, p1, p2, _, _, _, _, hval⟩ :=
          interpolate_middle points t hne (not_le.mp hc1) (not_le.mp hc2)
        rw [hval] at h
        exact Option.noConfusion h
  · rintro rfl
    rfl

/-- C1 (amended): on a non-empty time-ascending series (ties permitted,
as the spec's Series invariant allows), `valueAt` returns: the first sample's
value when `t` is at or left of the first time; the last sample's value when
`t` is at or right of the last time, provided `t` is strictly right of the
first time (on wholly degenerate series the left clamp takes precedence); the
value of a sample whose time equals `t` whenever `t` hits a sample time; and
for `t` strictly between the clamps the linear interpolation
`p1.value + (p2.value - p1.value) × (t - p1.time) / (p2.time - p1.time)` over
an adjacent bracketing pair with `p1.time ≤ t < p2.time` (for such a pair
`p2.time = p1.time` cannot occur, so the degenerate-duplicate branch never
fires there). -/
theorem C1_valueAt_characterization (points : List LiveLinePoint) (t : ℚ)
    (hs : sortedByTime points) (hne : points ≠ []) :
    (t ≤ (points.head hne).time →
      interpolateAtTime points t = some (points.head hne).value) ∧
    ((points.head hne).time < t → (points.getLast hne).time ≤ t →
      interpolateAtTime points t = some (points.getLast hne).value) ∧
    ((∃ p ∈ points, p.time = t) →
      ∃ p ∈ points, p.time = t ∧ interpolateAtTime points t = some p.value) ∧
    ((points.head hne).time < t → t < (points.getLast hne).time →
      ∃ i p1 p2, points[i]? = some p1 ∧ points[i + 1]? = some p2 ∧
        p1.time ≤ t ∧ t < p2.time ∧
        interpolateAtTime points t =
          some (p1.value + (p2.value - p1.value) * ((t - p1.time) / (p2.time - p1.time)))) := by
  refine ⟨fun hc => interpolate_clamp_left points t hne hc,
    fun h1 h2 => interpolate_clamp_right points t hne (not_le.mpr h1) h2,
    ?_, fun h1 h2 => interpolate_middle points t hne h1 h2⟩
  rintro ⟨p, hp, hpt⟩
  by_cases hc1 : t ≤ (points.head hne).time
  · refine ⟨points.head hne, List.head_mem hne, ?_, interpolate_clamp_left points t hne hc1⟩
    have hhp := sorted_head_le hs hne hp
    rw [hpt] at hhp
    exact le_antisymm hhp hc1
  · by_cases hc2 : (points.getLast hne).time ≤ t
    · refine ⟨points.getLast hne, List.getLast_mem hne, ?_,
        interpolate_clamp_right points t hne hc1 hc2⟩
      have hlp := sorted_le_getLast hs hne hp
      rw [hpt] at hlp
      exact le_antisymm hc2 hlp
    · obtain ⟨i, p1, p2, hip1, hip2, hle, hlt2, hval⟩ :=
        interpolate_middle points t hne (not_le.mp hc1) (not_le.mp hc2)
      obtain ⟨hi, hp1e⟩ := List.getElem?_eq_some.mp hip1
      obtain ⟨hi2, hp2e⟩ := List.getElem?_eq_some.mp hip2
      obtain ⟨j, hj, rfl⟩ := List.mem_iff_getElem.mp hp
      have e1 : ptAt points i = p1 := by
        rw [ptAt, List.getD_eq_getElem points _ hi, hp1e]
      have e2 : ptAt points (i + 1) = p2 := by
        rw [ptAt, List.getD_eq_getElem points _ hi2, hp2e]
      have ej : ptAt points j = points[j] := by
        rw [ptAt, List.getD_eq_getElem points _ hj]
      have hj_le : j ≤ i := by
        by_contra hji
        have hmono := sorted_time_mono hs (show i + 1 ≤ j by omega) hj
        rw [e2, ej, hpt] at hmono
        linarith
      have hp1t : p1.time = t := by
        have hmono := sorted_time_mono hs hj_le hi
        rw [e1, ej, hpt] at hmono
        exact le_antisymm hle hmono
      refine ⟨p1, hp1e ▸ List.getElem_mem hi, hp1t, ?_⟩
      rw [hval, hp1t, sub_self, zero_div, mul_zero, add_zero]

/-- Counterexample to C1 as stated: the sorted two-point series
`[(5, 1), (5, 2)]` (duplicate timestamps, permitted by the Series invariant)
queried at `t = 5` satisfies `t ≥ last.time` and `t` equals the time of the
sample `(5, 2)`, yet the code returns `1` (the left clamp fires first), not
the last sample's value `2`. -/
theorem C1_counterexample :
    sortedByTime [⟨5, 1⟩, ⟨5, 2⟩] ∧
    ([⟨5, 1⟩, ⟨5, 2⟩] : List LiveLinePoint).getLast? = some ⟨5, 2⟩ ∧
    interpolateAtTime [⟨5, 1⟩, ⟨5, 2⟩] 5 = some 1 ∧ some (1:ℚ) ≠ some (2:ℚ) := by
  refine ⟨by norm_num [sortedByTime], rfl, ?_, by norm_num⟩
  norm_num [interpolateAtTime]

/-- Witness for C1 on the two-point series `[(0,0), (10,10)]` at `t = 0`
(left clamp). -/
theorem C1_valueAt_characterization_witness :
    sortedByTime [⟨0, 0⟩, ⟨10, 10⟩] ∧
    interpolateAtTime [⟨0, 0⟩, ⟨10, 10⟩] 0 = some 0 := by
  constructor
  · norm_num [sortedByTime]
  · have h := (C1_valueAt_characterization [⟨0, 0⟩, ⟨10, 10⟩] 0
      (by norm_num [sortedByTime]) (by simp)).1 (by norm_num [List.head_cons])
    simpa using h

/-- Helper: a `min` fold never exceeds its initial accumulator. -/
theorem foldl_min_le_init (ws : List ℚ) : ∀ a : ℚ, ws.foldl min a ≤ a := by
  induction ws with
  | nil => intro a; exact le_refl a
  | cons w ws ih => intro a; exact le_trans (ih (min a w)) (min_le_left a w)

/-- Helper: a `max` fold never falls below its initial accumulator. -/
theorem init_le_foldl_max (ws : List ℚ) : ∀ a : ℚ, a ≤ ws.foldl max a := by
  induction ws with
  | nil => intro a; exact le_refl a
  | cons w ws ih => intro a; exact le_trans (le_max_left a w) (ih (max a w))

/-- Helper: the JS `if (v < m) min = v` fold is the `min` fold. -/
theorem foldl_if_min (ws : List ℚ) :
    ∀ a : ℚ, ws.foldl (fun m v => if v < m then v else m) a = ws.foldl min a := by
  induction ws with
  | nil => intro a; rfl
  | cons w ws ih =>
    intro a
    rw [List.foldl_cons, List.foldl_cons, ih]
    congr 1
    rcases lt_or_le w a with h | h
    · rw [if_pos h, min_eq_right (le_of_lt h)]
    · rw [if_neg (not_lt.mpr h), min_eq_left h]

/-- Helper: the JS `if (v > m) max = v` fold is the `max` fold. -/
theorem foldl_if_max (ws : List ℚ) :
    ∀ a : ℚ, ws.foldl (fun m v => if m < v then v else m) a = ws.foldl max a := by
  induction ws with
  | nil => intro a; rfl
  | cons w ws ih =>
    intro a
    rw [List.foldl_cons, List.foldl_cons, ih]
    congr 1
    rcases lt_or_le a w with h | h
    · rw [if_pos h, max_eq_right (le_of_lt h)]
    · rw [if_neg (not_lt.mpr h), max_eq_left h]

/-- C5: momentum classification.  A series shorter than 5 points is `flat`;
otherwise, over the window of the last `min(lookback, length)` points, a zero
range is `flat`, and with `delta` the last value minus the value at the start
of the trailing five (clamped to the window start) and
`threshold = range × 0.12`, the result is `up` iff `delta > threshold`,
`down` iff `delta < -threshold`, and `flat` otherwise. -/
theorem C5_detectMomentum_spec (data : List ℚ) (lookback : Nat) (hlb : 1 ≤ lookback) :
    (data.length < 5 → detectMomentum data lookback = Momentum.flat) ∧
    (5 ≤ data.length →
      (data.drop (data.length - lookback)).length = min lookback data.length ∧
      ∀ w ws, data.drop (data.length - lookback) = w :: ws →
        ((w :: ws).foldl max w - (w :: ws).foldl min w = 0 →
          detectMomentum data lookback = Momentum.flat) ∧
        ((w :: ws).foldl max w - (w :: ws).foldl min w ≠ 0 →
          ((detectMomentum data lookback = Momentum.up ↔
            ((w :: ws).foldl max w - (w :: ws).foldl min w) * (12/100) <
              (data.getLast?).getD 0 -
                (data[Nat.max (data.length - lookback) (data.length - 5)]?).getD 0) ∧
           (detectMomentum data lookback = Momentum.down ↔
            (data.getLast?).getD 0 -
                (data[Nat.max (data.length - lookback) (data.length - 5)]?).getD 0 <
              -(((w :: ws).foldl max w - (w :: ws).foldl min w) * (12/100))) ∧
           (detectMomentum data lookback = Momentum.flat ↔
            ¬ ((w :: ws).foldl max w - (w :: ws).foldl min w) * (12/100) <
              (data.getLast?).getD 0 -
                (data[Nat.max (data.length - lookback) (data.length - 5)]?).getD 0 ∧
            ¬ (data.getLast?).getD 0 -
                (data[Nat.max (data.length - lookback) (data.length - 5)]?).getD 0 <
              -(((w :: ws).foldl max w - (w :: ws).foldl min w) * (12/100)))))) := by
  refine ⟨fun h => by simp [detectMomentum, if_pos h], fun h5 => ⟨?_, ?_⟩⟩
  · rw [List.length_drop]
    rcases Nat.le_total lookback data.length with h | h
    · rw [min_eq_left h]; omega
    · rw [min_eq_right h]; omega
  · intro w ws hw
    have hmn : ws.foldl (fun m v => if v < m then v else m) w = (w :: ws).foldl min w := by
      rw [foldl_if_min, List.foldl_cons, min_self]
    have hmx : ws.foldl (fun m v => if m < v then v else m) w = (w :: ws).foldl max w := by
      rw [foldl_if_max, List.foldl_cons, max_self]
    have heq : detectMomentum data lookback =
        (if (w :: ws).foldl max w - (w :: ws).foldl min w = 0 then Momentum.flat
         else
           if ((w :: ws).foldl max w - (w :: ws).foldl min w) * (12/100) <
               (data.getLast?).getD 0 -
                 (data[Nat.max (data.length - lookback) (data.length - 5)]?).getD 0 then
             Momentum.up
           else
             if (data.getLast?).getD 0 -
                 (data[Nat.max (data.length - lookback) (data.length - 5)]?).getD 0 <
               -(((w :: ws).foldl max w - (w :: ws).foldl min w) * (12/100)) then
               Momentum.down
             else Momentum.flat) := by
      rw [← hmn, ← hmx]
      unfold detectMomentum
      rw [if_neg (not_lt.mpr h5), hw]
    refine ⟨fun h0 => by rw [heq, if_pos h0], fun hne0 => ?_⟩
    have hT : 0 < ((w :: ws).foldl max w - (w :: ws).foldl min w) * (12/100) := by
      have hle : (w :: ws).foldl min w ≤ (w :: ws).foldl max w :=
        le_trans (foldl_min_le_init (w :: ws) w) (init_le_foldl_max (w :: ws) w)
      have hpos := lt_of_le_of_ne (sub_nonneg.mpr hle) (Ne.symm hne0)
      exact mul_pos hpos (by norm_num)
    set T := ((w :: ws).foldl max w - (w :: ws).foldl min w) * (12/100) with hTdef
    set D := (data.getLast?).getD 0 -
      (data[Nat.max (data.length - lookback) (data.length - 5)]?).getD 0 with hDdef
    rw [heq, if_neg hne0]
    by_cases h1 : T < D
    · rw [if_pos h1]
      exact ⟨⟨fun _ => h1, fun _ => rfl⟩,
        ⟨fun hm => Momentum.noConfusion hm, fun hm => absurd hm (by linarith)⟩,
        ⟨fun hm => Momentum.noConfusion hm, fun hm => absurd h1 hm.1⟩⟩
    · rw [if_neg h1]
      by_cases h2 : D < -T
      · rw [if_pos h2]
        exact ⟨⟨fun hm => Momentum.noConfusion hm, fun hm => absurd hm h1⟩,
          ⟨fun _ => h2, fun _ => rfl⟩,
          ⟨fun hm => Momentum.noConfusion hm, fun hm => absurd h2 hm.2⟩⟩
      · rw [if_neg h2]
        exact ⟨⟨fun hm => Momentum.noConfusion hm, fun hm => absurd hm h1⟩,
          ⟨fun hm => Momentum.noConfusion hm, fun hm => absurd hm h2⟩,
          ⟨fun _ => ⟨h1, h2⟩, fun _ => rfl⟩⟩

/-- Witness for C5 on the rising series `[1, 2, 3, 4, 10]` (delta `9` over
range `9`, threshold `1.08`). -/
theorem C5_detectMomentum_spec_witness :
    (1:Nat) ≤ 20 ∧ detectMomentum [1, 2, 3, 4, 10] 20 = Momentum.up := by
  refine ⟨by norm_num, ?_⟩
  have h := ((C5_detectMomentum_spec [1, 2, 3, 4, 10] 20 (by norm_num)).2 (by norm_num)).2
    1 [2, 3, 4, 10] (by norm_num)
  exact ((h.2 (by norm_num)).1).mpr (by norm_num)

/-- Helper: the snapped step is always positive (it is 1, 2, 5 or 10 times a
power of ten). -/
theorem niceStepOf_pos (mn mx : ℚ) (count : Nat) : 0 < niceStepOf mn mx count := by
  have hmag : (0:ℚ) < (10:ℚ) ^ Int.log 10 ((mx - mn) / count) := zpow_pos (by norm_num) _
  simp only [niceStepOf]
  split_ifs <;> linarith

/-- C6: `niceGridTicks` returns the empty sequence when `max - min ≤ 0`, and
otherwise a strictly ascending sequence of integer multiples of the snapped
`niceStep`, each lying within `[min, max]`. -/
theorem C6_niceGridTicks_spec (mn mx : ℚ) (count : Nat) :
    (mx - mn ≤ 0 → niceGridTicks mn mx count = []) ∧
    (0 < mx - mn →
      List.Pairwise (· < ·) (niceGridTicks mn mx count) ∧
      ∀ x ∈ niceGridTicks mn mx count,
        mn ≤ x ∧ x ≤ mx ∧ ∃ k : ℤ, x = k * niceStepOf mn mx count) := by
  constructor
  · intro h
    unfold niceGridTicks
    rw [if_pos h]
  · intro h
    have hstep := niceStepOf_pos mn mx count
    set s := niceStepOf mn mx count with hs
    have hticks : niceGridTicks mn mx count =
        (List.range ((⌊(mx - ⌈mn / s⌉ * s) / s⌋ + 1).toNat)).map
          (fun k : ℕ => ⌈mn / s⌉ * s + (k:ℚ) * s) := by
      simp only [niceGridTicks, if_neg (not_le.mpr h), hs]
    have hstart : mn ≤ ⌈mn / s⌉ * s := by
      have h1 : mn / s ≤ (⌈mn / s⌉ : ℚ) := Int.le_ceil _
      calc mn = mn / s * s := (div_mul_cancel₀ mn (ne_of_gt hstep)).symm
      _ ≤ ⌈mn / s⌉ * s := mul_le_mul_of_nonneg_right h1 (le_of_lt hstep)
    constructor
    · rw [hticks]
      refine List.Pairwise.map _ ?_ (List.pairwise_lt_range _)
      intro a b hab
      have hq : (a:ℚ) < (b:ℚ) := by exact_mod_cast hab
      have := mul_lt_mul_of_pos_right hq hstep
      linarith
    · intro x hx
      rw [hticks] at hx
      obtain ⟨k, hk, rfl⟩ := List.mem_map.mp hx
      have hkn := List.mem_range.mp hk
      have hknonneg : (0:ℚ) ≤ (k:ℚ) * s := mul_nonneg (Nat.cast_nonneg k) (le_of_lt hstep)
      refine ⟨by linarith, ?_, ⟨⌈mn / s⌉ + (k:ℤ), by push_cast; ring⟩⟩
      have hk2 : (k:ℤ) < ⌊(mx - ⌈mn / s⌉ * s) / s⌋ + 1 := Int.lt_toNat.mp hkn
      have hk3 : (k:ℚ) ≤ (mx - ⌈mn / s⌉ * s) / s := by
        have hk4 : (k:ℤ) ≤ ⌊(mx - ⌈mn / s⌉ * s) / s⌋ := by omega
        calc (k:ℚ) ≤ ((⌊(mx - ⌈mn / s⌉ * s) / s⌋ : ℤ) : ℚ) := by exact_mod_cast hk4
        _ ≤ (mx - ⌈mn / s⌉ * s) / s := Int.floor_le _
      have := (le_div_iff₀ hstep).mp hk3
      linarith

/-- Witness for C6 at the spec's standard case `generate(0, 100, 5)`. -/
theorem C6_niceGridTicks_spec_witness :
    (0:ℚ) < 100 - 0 ∧
    List.Pairwise (· < ·) (niceGridTicks 0 100 5) ∧
    ∀ x ∈ niceGridTicks 0 100 5, (0:ℚ) ≤ x ∧ x ≤ 100 ∧ ∃ k : ℤ, x = k * niceStepOf 0 100 5 := by
  have h := (C6_niceGridTicks_spec 0 100 5).2 (by norm_num)
  exact ⟨by norm_num, h.1, h.2⟩

/-- C8 (amended): for a time-ascending input series and every `windowStart`,
`liveTime` and `liveValue`, the windowed slice unconditionally ends with the
synthetic live-tip point `{time: liveTime, value: liveValue}` and
unconditionally retains the point immediately preceding `windowStart` (the
last point with time `< windowStart`) when one exists; and the slice is
itself time-ascending provided every input point's time is at most `liveTime`
(the live tip is the newest point, the situation the render loop produces
when the clock is not paused). -/
theorem C8_contextData_spec (data : List LiveLinePoint) (windowStart liveTime liveValue : ℚ)
    (hs : sortedByTime data) :
    ((∀ p ∈ data, p.time ≤ liveTime) →
      sortedByTime (contextData data windowStart liveTime liveValue)) ∧
    (contextData data windowStart liveTime liveValue).getLast? =
      some ⟨liveTime, liveValue⟩ ∧
    ∀ p, 0 < bisectTime data windowStart →
      data[bisectTime data windowStart - 1]? = some p →
      p ∈ contextData data windowStart liveTime liveValue := by
  refine ⟨?_, ?_, ?_⟩
  · intro htip
    unfold contextData sortedByTime
    rw [List.pairwise_append]
    refine ⟨hs.sublist (List.drop_sublist _ _), List.pairwise_singleton _ _, ?_⟩
    intro a ha b hb
    rw [List.mem_singleton] at hb
    subst hb
    exact htip a (List.drop_subset _ _ ha)
  · unfold contextData
    exact List.getLast?_concat _
  · intro p h0 hp
    unfold contextData
    apply List.mem_append_left
    rw [if_pos h0]
    have hd := List.getElem?_drop data (bisectTime data windowStart - 1) 0
    rw [Nat.add_zero, hp] at hd
    obtain ⟨hlt, he⟩ := List.getElem?_eq_some.mp hd
    exact he ▸ List.getElem_mem hlt

/-- Counterexample to C8 as stated: with the sorted input `[(0,1), (10,2)]`,
`windowStart = 0` and a live tip at time `5` (earlier than the retained point
at time `10`, as happens when fresh data accumulates while the animated clock
lags), the slice `[(0,1), (10,2), (5,3)]` is not sorted ascending by time. -/
theorem C8_counterexample :
    sortedByTime [⟨0, 1⟩, ⟨10, 2⟩] ∧
    ¬ sortedByTime (contextData [⟨0, 1⟩, ⟨10, 2⟩] 0 5 3) := by
  constructor
  · norm_num [sortedByTime]
  · norm_num [contextData, bisectTime, sortedByTime]

/-- Witness for C8 on `[(0,1), (10,2)]`, window start `5`, live tip `(12, 7)`. -/
theorem C8_contextData_spec_witness :
    sortedByTime (contextData [⟨0, 1⟩, ⟨10, 2⟩] 5 12 7) ∧
    (contextData [⟨0, 1⟩, ⟨10, 2⟩] 5 12 7).getLast? = some ⟨12, 7⟩ := by
  have h := C8_contextData_spec [⟨0, 1⟩, ⟨10, 2⟩] 5 12 7 (by norm_num [sortedByTime])
  exact ⟨h.1 (by intro p hp; fin_cases hp <;> norm_num), h.2.1⟩

/-- Helper: every entry of the divisor cycles is `≥ 2`, and so is the `?? 2`
fallback. -/
theorem two_le_getD (divs : List ℚ) (hdiv : ∀ d ∈ divs, 2 ≤ d) (j : Nat) :
    2 ≤ (divs[j]?).getD 2 := by
  rcases hj : divs[j]? with _ | d
  · simp
  · obtain ⟨hlt, he⟩ := List.getElem?_eq_some.mp hj
    simpa using hdiv d (he ▸ List.getElem_mem hlt)

/-- Helper: the result of `divideLoop` does not depend on the fuel, as long as
the loop finishes within it. -/
theorem divideLoop_mono (pxPerUnit minGap : ℚ) (divs : List ℚ) :
    ∀ fuel fuel2 i span r, fuel ≤ fuel2 →
      divideLoop pxPerUnit minGap divs fuel i span = some r →
      divideLoop pxPerUnit minGap divs fuel2 i span = some r := by
  intro fuel
  induction fuel with
  | zero =>
    intro fuel2 i span r _ h
    exact absurd h (by simp [divideLoop])
  | succ fuel ih =>
    intro fuel2 i span r hle h
    obtain ⟨fuel2', rfl⟩ : ∃ f, fuel2 = f + 1 := ⟨fuel2 - 1, by omega⟩
    simp only [divideLoop] at h ⊢
    by_cases hc : minGap ≤ span / ((divs[i % 3]?).getD 2) * pxPerUnit
    · rw [if_pos hc] at h ⊢
      exact ih fuel2' (i + 1) (span / ((divs[i % 3]?).getD 2)) r (by omega) h
    · rw [if_neg hc] at h ⊢
      exact h

/-- Helper: with positive pixel density, gap and span, and all divisors `≥ 2`,
the loop finishes: every iteration at least halves `span`, so once
`span * pxPerUnit ≤ 2 ^ fuel * minGap`, fuel `fuel + 1` suffices. -/
theorem divideLoop_isSome (pxPerUnit minGap : ℚ) (divs : List ℚ)
    (hdiv : ∀ d ∈ divs, 2 ≤ d) (hpx : 0 < pxPerUnit) (hmg : 0 < minGap) :
    ∀ fuel i span, 0 < span → span * pxPerUnit ≤ 2 ^ fuel * minGap →
      ∃ r, divideLoop pxPerUnit minGap divs (fuel + 1) i span = some r := by
  intro fuel
  induction fuel with
  | zero =>
    intro i span hspan hb
    rw [pow_zero, one_mul] at hb
    have hd := two_le_getD divs hdiv (i % 3)
    have hcalc : span / ((divs[i % 3]?).getD 2) * pxPerUnit ≤ span * pxPerUnit / 2 := by
      rw [div_mul_eq_mul_div]
      exact div_le_div_of_nonneg_left (mul_nonneg hspan.le hpx.le) (by norm_num) hd
    have hcond : ¬ minGap ≤ span / ((divs[i % 3]?).getD 2) * pxPerUnit := by
      push_neg
      calc span / ((divs[i % 3]?).getD 2) * pxPerUnit ≤ span * pxPerUnit / 2 := hcalc
      _ ≤ minGap / 2 := by linarith
      _ < minGap := by linarith
    refine ⟨span, ?_⟩
    simp only [divideLoop]
    rw [if_neg hcond]
  | succ fuel ih =>
    intro i span hspan hb
    have hd := two_le_getD divs hdiv (i % 3)
    have hdpos : (0:ℚ) < (divs[i % 3]?).getD 2 := by linarith
    by_cases hcond : minGap ≤ span / ((divs[i % 3]?).getD 2) * pxPerUnit
    · have hb2 : span / ((divs[i % 3]?).getD 2) * pxPerUnit ≤ 2 ^ fuel * minGap := by
        have hcalc : span / ((divs[i % 3]?).getD 2) * pxPerUnit ≤ span * pxPerUnit / 2 := by
          rw [div_mul_eq_mul_div]
          exact div_le_div_of_nonneg_left (mul_nonneg hspan.le hpx.le) (by norm_num) hd
        calc span / ((divs[i % 3]?).getD 2) * pxPerUnit ≤ span * pxPerUnit / 2 := hcalc
        _ ≤ (2 ^ (fuel + 1) * minGap) / 2 := by linarith
        _ = 2 ^ fuel * minGap := by ring
      obtain ⟨r, hr⟩ := ih (i + 1) (span / ((divs[i % 3]?).getD 2)) (div_pos hspan hdpos) hb2
      refine ⟨r, ?_⟩
      simp only [divideLoop]
      rw [if_pos hcond]
      exact hr
    · refine ⟨span, ?_⟩
      simp only [divideLoop]
      rw [if_neg hcond]

/-- Helper: the loop invariant — the candidate span's implied pixel spacing
stays at least `minGap` (it starts that way, and the loop only divides while
the quotient still clears the gap). -/
theorem divideLoop_ge_minGap (pxPerUnit minGap : ℚ) (divs : List ℚ) :
    ∀ fuel i span r, divideLoop pxPerUnit minGap divs fuel i span = some r →
      minGap ≤ span * pxPerUnit → minGap ≤ r * pxPerUnit := by
  intro fuel
  induction fuel with
  | zero =>
    intro i span r h _
    exact absurd h (by simp [divideLoop])
  | succ fuel ih =>
    intro i span r h hinv
    simp only [divideLoop] at h
    by_cases hc : minGap ≤ span / ((divs[i % 3]?).getD 2) * pxPerUnit
    · rw [if_pos hc] at h
      exact ih (i + 1) _ r h hc
    · rw [if_neg hc] at h
      exact Option.some.inj h ▸ hinv

/-- Helper: the fuel baked into `pickNiceInterval` is adequate. -/
theorem loopFuel_le (pxPerUnit minGap span0 : ℚ) (hmg : 0 < minGap) :
    span0 * pxPerUnit ≤ 2 ^ ((Int.clog 2 (span0 * pxPerUnit / minGap)).toNat) * minGap := by
  set q := span0 * pxPerUnit / minGap with hq
  have h2 : q ≤ (2:ℚ) ^ Int.clog 2 q := by
    have := Int.self_le_zpow_clog (show (1:ℕ) < 2 by norm_num) (r := q)
    simpa using this
  have h3 : (2:ℚ) ^ Int.clog 2 q ≤ 2 ^ ((Int.clog 2 q).toNat) := by
    rcases le_or_lt 0 (Int.clog 2 q) with hc | hc
    · have he : (2:ℚ) ^ Int.clog 2 q = 2 ^ ((Int.clog 2 q).toNat) := by
        conv_lhs => rw [← Int.toNat_of_nonneg hc]
        exact zpow_natCast 2 _
      exact he.le
    · have hle1 : (2:ℚ) ^ Int.clog 2 q ≤ 1 := zpow_le_one_of_nonpos₀ (by norm_num) hc.le
      have hge1 : (1:ℚ) ≤ 2 ^ ((Int.clog 2 q).toNat) := one_le_pow₀ (by norm_num)
      linarith
  have hqle : q ≤ 2 ^ ((Int.clog 2 q).toNat) := le_trans h2 h3
  have hrw : span0 * pxPerUnit = q * minGap := by
    rw [hq, div_mul_cancel₀]
    exact ne_of_gt hmg
  rw [hrw]
  exact mul_le_mul_of_nonneg_right hqle hmg.le

/-- Helper: `10 ^ ⌈log10 valRange⌉` is at least `valRange`. -/
theorem self_le_span0 (valRange : ℚ) : valRange ≤ (10:ℚ) ^ Int.clog 10 valRange := by
  have := Int.self_le_zpow_clog (show (1:ℕ) < 10 by norm_num) (r := valRange)
  simpa using this

/-- C4 (amended): for every `valueRange > 0`, `pixelExtent > 0` and
`minPixelGap > 0` where the degenerate and hysteresis branches do not apply,
`pickNiceInterval` returns the smallest of the three candidate spans produced
by the divisor cycles `[2, 2.5, 2]`, `[2, 2, 2.5]` and `[2.5, 2, 2]` starting
from `10 ^ ⌈log10 valueRange⌉`; and, provided additionally
`minPixelGap ≤ pixelExtent`, the returned span's implied pixel spacing
`span × pixelExtent / valueRange` is at least `minPixelGap` (without that
proviso the spacing bound can fail — see the counterexample). -/
theorem C4_pickNiceInterval_search (valueRange pixelExtent minPixelGap previousInterval : ℚ)
    (hv : 0 < valueRange) (hp : 0 < pixelExtent) (hm : 0 < minPixelGap)
    (hhyst : ¬ (0 < previousInterval ∧
      minPixelGap * (1/2) ≤ previousInterval * (pixelExtent / valueRange) ∧
      previousInterval * (pixelExtent / valueRange) ≤ minPixelGap * 3)) :
    ∃ a b c,
      divideLoop (pixelExtent / valueRange) minPixelGap [2, 5/2, 2]
        (loopFuel (pixelExtent / valueRange) minPixelGap ((10:ℚ) ^ Int.clog 10 valueRange))
        0 ((10:ℚ) ^ Int.clog 10 valueRange) = some a ∧
      divideLoop (pixelExtent / valueRange) minPixelGap [2, 2, 5/2]
        (loopFuel (pixelExtent / valueRange) minPixelGap ((10:ℚ) ^ Int.clog 10 valueRange))
        0 ((10:ℚ) ^ Int.clog 10 valueRange) = some b ∧
      divideLoop (pixelExtent / valueRange) minPixelGap [5/2, 2, 2]
        (loopFuel (pixelExtent / valueRange) minPixelGap ((10:ℚ) ^ Int.clog 10 valueRange))
        0 ((10:ℚ) ^ Int.clog 10 valueRange) = some c ∧
      pickNiceInterval valueRange pixelExtent minPixelGap previousInterval =
        some (min a (min b c)) ∧
      (minPixelGap ≤ pixelExtent →
        minPixelGap ≤ min a (min b c) * pixelExtent / valueRange) := by
  have hpx : 0 < pixelExtent / valueRange := div_pos hp hv
  have hspan : 0 < (10:ℚ) ^ Int.clog 10 valueRange := zpow_pos (by norm_num) _
  have hfuel := loopFuel_le (pixelExtent / valueRange) minPixelGap
    ((10:ℚ) ^ Int.clog 10 valueRange) hm
  have hd1 : ∀ d ∈ ([2, 5/2, 2] : List ℚ), 2 ≤ d := by
    intro d hd
    fin_cases hd <;> norm_num
  have hd2 : ∀ d ∈ ([2, 2, 5/2] : List ℚ), 2 ≤ d := by
    intro d hd
    fin_cases hd <;> norm_num
  have hd3 : ∀ d ∈ ([5/2, 2, 2] : List ℚ), 2 ≤ d := by
    intro d hd
    fin_cases hd <;> norm_num
  obtain ⟨a, ha⟩ := divideLoop_isSome (pixelExtent / valueRange) minPixelGap _ hd1 hpx hm
    ((Int.clog 2 ((10:ℚ) ^ Int.clog 10 valueRange * (pixelExtent / valueRange) / minPixelGap)).toNat)
    0 _ hspan hfuel
  obtain ⟨b, hb⟩ := divideLoop_isSome (pixelExtent / valueRange) minPixelGap _ hd2 hpx hm
    ((Int.clog 2 ((10:ℚ) ^ Int.clog 10 valueRange * (pixelExtent / valueRange) / minPixelGap)).toNat)
    0 _ hspan hfuel
  obtain ⟨c, hc⟩ := divideLoop_isSome (pixelExtent / valueRange) minPixelGap _ hd3 hpx hm
    ((Int.clog 2 ((10:ℚ) ^ Int.clog 10 valueRange * (pixelExtent / valueRange) / minPixelGap)).toNat)
    0 _ hspan hfuel
  have ha' : divideLoop (pixelExtent / valueRange) minPixelGap [2, 5/2, 2]
      (loopFuel (pixelExtent / valueRange) minPixelGap ((10:ℚ) ^ Int.clog 10 valueRange))
      0 ((10:ℚ) ^ Int.clog 10 valueRange) = some a := ha
  have hb' : divideLoop (pixelExtent / valueRange) minPixelGap [2, 2, 5/2]
      (loopFuel (pixelExtent / valueRange) minPixelGap ((10:ℚ) ^ Int.clog 10 valueRange))
      0 ((10:ℚ) ^ Int.clog 10 valueRange) = some b := hb
  have hc' : divideLoop (pixelExtent / valueRange) minPixelGap [5/2, 2, 2]
      (loopFuel (pixelExtent / valueRange) minPixelGap ((10:ℚ) ^ Int.clog 10 valueRange))
      0 ((10:ℚ) ^ Int.clog 10 valueRange) = some c := hc
  refine ⟨a, b, c, ha', hb', hc', ?_, ?_⟩
  · simp only [pickNiceInterval, if_neg (by push_neg; exact ⟨hv, hp⟩ :
      ¬ (valueRange ≤ 0 ∨ pixelExtent ≤ 0)), if_neg hhyst]
    rw [ha', hb', hc']
  · intro hmp
    have hinit : minPixelGap ≤ (10:ℚ) ^ Int.clog 10 valueRange * (pixelExtent / valueRange) := by
      have h1 : valueRange * (pixelExtent / valueRange) = pixelExtent := by
        field_simp
      have h2 := mul_le_mul_of_nonneg_right (self_le_span0 valueRange) hpx.le
      rw [h1] at h2
      linarith
    have hga := divideLoop_ge_minGap (pixelExtent / valueRange) minPixelGap [2, 5/2, 2]
      _ 0 _ a ha' hinit
    have hgb := divideLoop_ge_minGap (pixelExtent / valueRange) minPixelGap [2, 2, 5/2]
      _ 0 _ b hb' hinit
    have hgc := divideLoop_ge_minGap (pixelExtent / valueRange) minPixelGap [5/2, 2, 2]
      _ 0 _ c hc' hinit
    have hmin : min a (min b c) = a ∨ min a (min b c) = b ∨ min a (min b c) = c := by
      rcases min_cases a (min b c) with ⟨h1, _⟩ | ⟨h1, _⟩
      · exact Or.inl h1
      · rcases min_cases b c with ⟨h2, _⟩ | ⟨h2, _⟩
        · exact Or.inr (Or.inl (h1.trans h2))
        · exact Or.inr (Or.inr (h1.trans h2))
    rw [mul_div_assoc]
    rcases hmin with he | he | he <;> rw [he]
    · exact hga
    · exact hgb
    · exact hgc

/-- Counterexample to C4 as stated: at `valueRange = 10`,
`pixelExtent = 10`, `minPixelGap = 100` (no hysteresis: previous interval `0`)
the loops never divide, every candidate is `10`, and the returned span's
implied spacing is `10 × 10 / 10 = 10 < 100 = minPixelGap`. -/
theorem C4_counterexample :
    (0:ℚ) < 10 ∧ (0:ℚ) < 100 ∧
    pickNiceInterval 10 10 100 0 = some 10 ∧ ¬ ((100:ℚ) ≤ 10 * 10 / 10) := by
  refine ⟨by norm_num, by norm_num, ?_, by norm_num⟩
  have hn : Nat.clog 10 10 = 1 := Nat.clog_eq_one (by norm_num) (by norm_num)
  have hg : (Int.clog 2 ((1:ℚ)/10)).toNat = 0 := by
    apply Int.toNat_of_nonpos
    rw [Int.clog_of_right_le_one _ (by norm_num)]
    simp
  norm_num [pickNiceInterval, loopFuel, divideLoop, hn, hg]

/-- Witness for C4 at `valueRange = 10`, `pixelExtent = 100`,
`minPixelGap = 10`, no previous interval. -/
theorem C4_pickNiceInterval_search_witness :
    ∃ r, pickNiceInterval 10 100 10 0 = some r ∧ (10:ℚ) ≤ r * 100 / 10 := by
  obtain ⟨a, b, c, _, _, _, hpick, hge⟩ := C4_pickNiceInterval_search 10 100 10 0
    (by norm_num) (by norm_num) (by norm_num) (by norm_num)
  exact ⟨min a (min b c), hpick, hge (by norm_num)⟩

end BklitUI
